import Mathlib

/-!
Verification of the job-runner in `.config/yadm/install.py`.

The embedding translates the Python source into Lean:
text is represented as `List Char` (so Python string operations such as
`strip`, `splitlines`, `ljust` are ordinary list functions), a child
process's observable behaviour is a `CmdBehavior` record (the lines each
reader thread receives, plus the exit code), and the orchestration loop
`run_jobs_display` becomes a fuel-indexed step function over an explicit
`RunState` mirroring the `rich` progress state (per-task completed
counters and `finished_time` flags, the aggregate task, the two output
`Text` sinks).  Exceptions (`CalledProcessError`, `IndexError`,
`StopIteration`, `ValueError`) become explicit outcome constructors.
-/

namespace Install

/-- Text contents, as a list of characters (Python `str`). -/
abbrev Str := List Char

/-- Converts a Lean string literal to the `Str` representation. -/
def str (s : String) : Str := s.data

/-- Python `CalledProcessError(returncode, cmd, output, stderr)` as raised
by `execute` / `execute_display`. -/
structure ProcessFailure where
  cmd : List Str
  returncode : Int
  output : Str
  stderr : Str
deriving DecidableEq, Repr

/-- Result of `subprocess.run(args, capture_output=True)`: the exit code and
the fully captured output streams. -/
structure SubprocessResult where
  returncode : Int
  stdout : Str
  stderr : Str
deriving DecidableEq, Repr

/-- Python `output[:-1] if output.endswith "\n" else output` from `execute`
(lines 64-67): strips one trailing newline character when present. -/
def stripTrailingNewline (s : Str) : Str :=
  if s.getLast? = some '\n' then s.dropLast else s

/-- `execute` (install.py lines 58-67): runs the command with
`check=True`; a non-zero exit raises `CalledProcessError` carrying the
command, exit code and both captured streams (raised by `subprocess.run`
before any decoding), and exit 0 returns the captured stdout with a single
trailing newline stripped. -/
def execute (args : List Str) (r : SubprocessResult) : Except ProcessFailure Str :=
  if r.returncode ≠ 0 then
    .error ⟨args, r.returncode, r.stdout, r.stderr⟩
  else
    .ok (stripTrailingNewline r.stdout)

/-- Observable behaviour of one spawned child process: the successive
lines handed to the stdout reader thread and to the stderr reader thread
(each line as returned by `stream.readline().decode()`, trailing newline
included), and the process exit code. -/
structure CmdBehavior where
  stdoutLines : List Str
  stderrLines : List Str
  returncode : Int
deriving DecidableEq, Repr

/-- `execute_display` (install.py lines 70-104), functional view: both
reader threads are joined before the outcome is reported, so the sinks end
up holding their previous contents plus every line of the command's
output; a non-zero exit code then raises `CalledProcessError` whose
`output`/`stderr` are `stdout.plain` / `stderr.plain`, the final sink
contents.  Returns the two final sink contents and the failure, if any. -/
def execute_display (cmd : List Str) (b : CmdBehavior) (stdoutT stderrT : Str) :
    Str × Str × Option ProcessFailure :=
  let out := stdoutT ++ b.stdoutLines.flatten
  let err := stderrT ++ b.stderrLines.flatten
  (out, err,
    if b.returncode ≠ 0 then some ⟨cmd, b.returncode, out, err⟩ else none)

/-- Events of one `execute_display` call, to reason about the ordering of
process spawn, the two reader threads, termination and re-raising. -/
inductive ExecEvent where
  | spawn
  | startReader (isOut : Bool)
  | waitReturn
  | waitInterrupted
  | terminate
  | joinReader (isOut : Bool)
  | raiseInterrupt
  | raiseFailure
  | ret
deriving DecidableEq, Repr

/-- Control-flow trace of `execute_display` (install.py lines 83-104):
spawn, start both readers, then `try: process.wait()`.  If the wait is
interrupted the bare `except:` calls `process.terminate()` and re-raises;
the `finally:` block joins both reader threads before the exception (or
normal control) leaves the `try` statement; only then is the return code
checked and `CalledProcessError` possibly raised. -/
def execute_display_events (interrupted : Bool) (returncode : Int) : List ExecEvent :=
  [.spawn, .startReader true, .startReader false] ++
  (if interrupted then [.waitInterrupted, .terminate] else [.waitReturn]) ++
  [.joinReader true, .joinReader false] ++
  (if interrupted then [.raiseInterrupt]
   else if returncode ≠ 0 then [.raiseFailure] else [.ret])

/-- Python `str.splitlines` restricted to the line boundaries `"\n"`,
`"\r\n"` and `"\r"`: no entry for a trailing terminator, and an empty
input yields no lines. -/
def splitlines : Str → List Str
  | [] => []
  | '\n' :: rest => [] :: splitlines rest
  | '\r' :: '\n' :: rest => [] :: splitlines rest
  | '\r' :: rest => [] :: splitlines rest
  | c :: rest =>
    match splitlines rest with
    | [] => [[c]]
    | l :: ls => (c :: l) :: ls

/-- Python `str.isspace` characters relevant to `str.strip()` (ASCII
whitespace). -/
def isPySpace (c : Char) : Bool :=
  c = ' ' || c = '\t' || c = '\n' || c = '\r' || c = '\x0b' || c = '\x0c'

/-- Python `str.strip()`: removes leading and trailing whitespace. -/
def pyStrip (s : Str) : Str :=
  ((s.dropWhile isPySpace).reverse.dropWhile isPySpace).reverse

/-- Python `str.startswith("#")`. -/
def startsWithHash : Str → Bool
  | [] => false
  | c :: _ => c = '#'

/-- `read_requirements` (install.py lines 205-209) applied to the file's
text: keeps every line whose stripped form does not start with `#`. -/
def read_requirements (content : Str) : List Str :=
  (splitlines content).filter fun r => !(startsWithHash (pyStrip r))

/-- A job of commands to execute sequentially (install.py lines 28-36). -/
structure CommandJob where
  title : Str
  commands : List (List Str)
  finish_message : Str
deriving DecidableEq, Repr, Inhabited

/-- `get_apt_requirement_install_commands` (install.py lines 247-269). -/
def get_apt_requirement_install_commands (requirements : List Str) : List (List Str) :=
  [[str "sudo", str "apt-get", str "update", str "-y"],
   [str "sudo", str "apt-get", str "upgrade", str "-y"]] ++
  requirements.map fun r =>
    [str "sudo", str "apt-get", str "install", str "-y", str "-qq",
     str "-o=Dpkg::Use-Pty=0", r]

/-- `get_brew_requirement_install_commands` (install.py lines 272-297). -/
def get_brew_requirement_install_commands (requirements : List Str) : List (List Str) :=
  [[str "bash", str "-c",
    str "bash -c \"export NONINTERACTIVE=1; $(curl -fsSL https://raw.githubusercontent.com/Homebrew/install/HEAD/install.sh)\""],
   [str "/home/linuxbrew/.linuxbrew/bin/brew", str "upgrade"]] ++
  requirements.map fun r => [str "/home/linuxbrew/.linuxbrew/bin/brew", str "install", r]

/-- `get_pip_requirement_install_commands` (install.py lines 300-306);
`exe` models `sys.executable`. -/
def get_pip_requirement_install_commands (exe : Str) (requirements : List Str) :
    List (List Str) :=
  requirements.map fun r => [exe, str "-m", str "pip", str "install", str "-U", r]

/-- `get_snap_requirement_install_commands` (install.py lines 309-317). -/
def get_snap_requirement_install_commands (requirements : List Str) : List (List Str) :=
  [[str "sudo", str "snap", str "refresh"]] ++
  requirements.map fun r => [str "sudo", str "snap", str "install", str "--classic", r]

/-- Python `str.title()` for the single lowercase words used here:
upper-cases the first character and lower-cases the rest. -/
def pyTitleWord : Str → Str
  | [] => []
  | c :: cs => c.toUpper :: cs.map Char.toLower

/-- Decimal rendering of a natural number (Python `f"{n}"`). -/
def natStr (n : Nat) : Str := (Nat.repr n).data

/-- The `REQUIREMENTS` table of `get_requirements_install_jobs`
(install.py lines 216-221): package-manager name, file name, and
command-builder function. -/
def REQUIREMENTS (exe : Str) : List (Str × String × (List Str → List (List Str))) :=
  [(str "apt", "apt.txt", get_apt_requirement_install_commands),
   (str "brew", "brew.txt", get_brew_requirement_install_commands),
   (str "pip", "pip.txt", get_pip_requirement_install_commands exe),
   (str "snap", "snap.txt", get_snap_requirement_install_commands)]

/-- `get_requirements_install_jobs` (install.py lines 212-244).  The
directory is modelled by `fs`, mapping each file name to its text when the
file is present.  Absent files are skipped (only a warning is printed);
each present file contributes exactly one `CommandJob` built from its
non-comment lines. -/
def get_requirements_install_jobs (exe : Str) (fs : String → Option Str) :
    List CommandJob :=
  (REQUIREMENTS exe).filterMap fun entry =>
    (fs entry.2.1).map fun content =>
      let requirements := read_requirements content
      { title := pyTitleWord entry.1 ++ str " requirements"
        commands := entry.2.2 requirements
        finish_message := natStr requirements.length ++ str " package" ++
          (if requirements.length = 1 then [] else str "s") ++ str " installed" }

/-- Per-job totals: `len(job.commands)` for each job, in list order (the
`total=` argument of each `progress.add_task` call, line 122). -/
def totals (jobs : List CommandJob) : List Nat :=
  jobs.map fun j => j.commands.length

/-- The total task's `total`: `int(sum(task.total for task in
progress.tasks))` at line 126, i.e. the sum of the per-job totals. -/
def sumTotals (jobs : List CommandJob) : Nat :=
  (totals jobs).sum

/-- The run's command sequence flattened in job-list then command-list
order. -/
def flattenCommands (jobs : List CommandJob) : List (List Str) :=
  (jobs.map fun j => j.commands).flatten

/-- `max(len(job.title) for job in jobs)` (line 111), for non-empty job
lists. -/
def max_job_title_length (jobs : List CommandJob) : Nat :=
  (jobs.map fun j => j.title.length).foldl max 0

/-- Python `str.ljust(w)`: pads with spaces on the right up to width `w`
(no-op when the string is already at least that long). -/
def ljust (s : Str) (w : Nat) : Str :=
  s ++ List.replicate (w - s.length) ' '

/-- Python `" ".join(tokens)` (line 176). -/
def joinSpace (cmd : List Str) : Str :=
  (List.intersperse (str " ") cmd).flatten

/-- State of `run_jobs_display`'s loop, mirroring the `rich.Progress`
state it manipulates: per-job `completed` counters and `finished_time`
flags (a `rich` task is `finished` exactly when its `finished_time` has
been set, which happens only inside `update`/`advance` once `completed >=
total`), the aggregate task's counter and flag, and the two `Text` sinks.
`trace` records the commands handed to `execute_display` in order,
`sinkLog` records the sink contents at the moment each command started,
and `descs` records every `progress.update(..., description=...)` call as
(task index, new description). -/
structure RunState where
  completed : List Nat
  flags : List Bool
  totalCompleted : Nat
  totalFlag : Bool
  stdoutT : Str
  stderrT : Str
  trace : List (List Str)
  sinkLog : List (Str × Str)
  descs : List (Nat × Str)
deriving DecidableEq, Repr

/-- State after the `add_task` calls (lines 121-127): all counters zero,
no task has a `finished_time`, both `Text` sinks empty. -/
def initState (jobs : List CommandJob) : RunState :=
  ⟨List.replicate jobs.length 0, List.replicate jobs.length false,
   0, false, [], [], [], [], []⟩

/-- `progress.finished` (loop guard, line 164): every task — the per-job
tasks and the total task — has its `finished_time` set. -/
def progressFinished (s : RunState) : Bool :=
  s.flags.all (fun f => f) && s.totalFlag

/-- `next(task for task in progress.tasks if task.id != total_task_id and
not task.finished)` (lines 166-170): index of the first per-job task not
marked finished, in task-insertion order (= job-list order). -/
def firstUnfinished : List Bool → Option Nat
  | [] => none
  | f :: fs => if f then (firstUnfinished fs).map (· + 1) else some 0

/-- A `rich` `update`/`advance` on task `i` whose counter now reads
`completed`: `finished_time` is set (and never cleared) once
`completed >= total`. -/
def setFinishedFlag (flags : List Bool) (i : Nat) (completed total : Nat) : List Bool :=
  flags.set i ((flags.getD i false) || decide (total ≤ completed))

/-- Result of one iteration of the `while` body (lines 165-191). -/
inductive StepResult where
  | stopIter
  | indexErr
  | failedStep (e : ProcessFailure) (s : RunState)
  | cont (s : RunState)
deriving Repr

/-- One iteration of the orchestration loop (install.py lines 165-191):
select the first unfinished per-job task (`StopIteration` if none),
index into its command list with its `completed` counter (`IndexError` if
out of range), update the task description to the padded title plus the
pending command, run `execute_display` on the current sinks (the
`CalledProcessError` of a failing command propagates immediately, leaving
the sinks filled), otherwise clear both sinks, advance the job task (and
set its description to the finish message when that made it finished),
and advance the total task. -/
def runStep (env : Nat → CmdBehavior) (jobs : List CommandJob) (s : RunState) : StepResult :=
  match firstUnfinished s.flags with
  | none => .stopIter
  | some i =>
    let job := jobs.getD i default
    let c := s.completed.getD i 0
    match job.commands[c]? with
    | none => .indexErr
    | some cmd =>
      let base := ljust job.title (max_job_title_length jobs + 2)
      let s1 := { s with
        descs := s.descs ++ [(i, base ++ str "[yellow]" ++ joinSpace cmd)]
        flags := setFinishedFlag s.flags i c job.commands.length }
      let b := env s1.trace.length
      let (out, err, res) := execute_display cmd b s1.stdoutT s1.stderrT
      let s2 := { s1 with
        stdoutT := out
        stderrT := err
        trace := s1.trace ++ [cmd]
        sinkLog := s1.sinkLog ++ [(s1.stdoutT, s1.stderrT)] }
      match res with
      | some e => .failedStep e s2
      | none =>
        let s3 := { s2 with stdoutT := [], stderrT := [] }
        let s4 := { s3 with
          completed := s3.completed.set i (c + 1)
          flags := setFinishedFlag s3.flags i (c + 1) job.commands.length }
        let s5 :=
          if s4.flags.getD i false then
            { s4 with descs := s4.descs ++
              [(i, base ++ str "[green]" ++ job.finish_message)] }
          else s4
        .cont { s5 with
          totalCompleted := s5.totalCompleted + 1
          totalFlag := s5.totalFlag || decide (sumTotals jobs ≤ s5.totalCompleted + 1) }

/-- Possible outcomes of `run_jobs_display`: normal return, a propagated
`CalledProcessError` (with the state at the raise), a `StopIteration`
from `next`, an `IndexError` from the command lookup, a `ValueError` from
`max` on an empty job list, or fuel exhaustion (never reached from
`run_jobs_display`, whose fuel bounds the loop's iterations). -/
inductive RunOutcome where
  | ok (s : RunState)
  | failed (e : ProcessFailure) (s : RunState)
  | stopIter
  | indexErr
  | emptyErr
  | outOfFuel
deriving DecidableEq, Repr

/-- The `while not progress.finished` loop (lines 163-191), fuel-indexed. -/
def runLoop (env : Nat → CmdBehavior) (jobs : List CommandJob) :
    RunState → Nat → RunOutcome
  | _, 0 => .outOfFuel
  | s, fuel + 1 =>
    if progressFinished s then .ok s
    else
      match runStep env jobs s with
      | .stopIter => .stopIter
      | .indexErr => .indexErr
      | .failedStep e s' => .failed e s'
      | .cont s' => runLoop env jobs s' fuel

/-- `run_jobs_display` (install.py lines 107-191).  `env k` is the
behaviour of the `k`-th child process spawned during the run.  The `max`
over titles at line 111 raises `ValueError` on an empty job list. -/
def run_jobs_display (env : Nat → CmdBehavior) (jobs : List CommandJob) : RunOutcome :=
  if jobs.isEmpty then .emptyErr
  else runLoop env jobs (initState jobs) (sumTotals jobs + 1)

/-- Canonical distribution of `n` completed commands over the per-job
totals `ts`, filling jobs greedily in list order: this is the shape of the
`completed` counters after `n` successful commands. -/
def canonCompleted : List Nat → Nat → List Nat
  | [], _ => []
  | t :: ts, n => min t n :: canonCompleted ts (n - min t n)

/-- The `finished_time` flags matching `canonCompleted ts n`: a per-job
task is marked finished exactly when its counter has reached its total
(valid whenever every total is positive, since then the flag is set
exactly by the `advance` that completes the job). -/
def canonFlags (ts : List Nat) (n : Nat) : List Bool :=
  List.zipWith (fun c t => decide (t ≤ c)) (canonCompleted ts n) ts

/-- The loop state reached after `n` successful commands: canonical
counters and flags, aggregate counter `n`, aggregate flag set once every
command is done, both sinks empty, and the first `n` flattened commands
executed. -/
def Canon (jobs : List CommandJob) (n : Nat) (s : RunState) : Prop :=
  s.completed = canonCompleted (totals jobs) n ∧
  s.flags = canonFlags (totals jobs) n ∧
  s.totalCompleted = n ∧
  s.totalFlag = decide (sumTotals jobs ≤ n) ∧
  s.stdoutT = [] ∧ s.stderrT = [] ∧
  s.trace = (flattenCommands jobs).take n

/-- A recorded description update is well-formed: it belongs to an actual
job of the list and extends that job's title left-justified to the width
`max_job_title_length jobs + 2` (line 175). -/
def descOk (jobs : List CommandJob) (p : Nat × Str) : Prop :=
  ∃ job suffix, jobs[p.1]? = some job ∧
    p.2 = ljust job.title (max_job_title_length jobs + 2) ++ suffix

/-- Every recorded per-command sink snapshot is a pair of empty buffers. -/
def sinkLogClean (s : RunState) : Bool :=
  s.sinkLog.all fun p => p = ([], [])

/-- Checks the output-buffer discipline on a run outcome: every command
started with both sinks empty, and a propagated failure carries exactly
the failing command's own output in its `output`/`stderr` fields. -/
def bufferReport (env : Nat → CmdBehavior) : RunOutcome → Bool
  | .ok s => sinkLogClean s
  | .failed e s => sinkLogClean s &&
      decide (e.output = (env (s.trace.length - 1)).stdoutLines.flatten) &&
      decide (e.stderr = (env (s.trace.length - 1)).stderrLines.flatten)
  | _ => true

/-- The description updates recorded by a finished or failed run. -/
def descsOf : RunOutcome → List (Nat × Str)
  | .ok s => s.descs
  | .failed _ s => s.descs
  | _ => []

/-- Modelled from the spec's words, for the refinement comparison of the
label claim: "Per-job label is padded to a common width (max title length
across jobs)" — the title left-justified to exactly the maximum title
length. -/
def labelPaddedToMaxTitle (jobs : List CommandJob) (job : CommandJob) : Str :=
  ljust job.title (max_job_title_length jobs)

/-! Helper lemmas about lists and the canonical run states. -/

theorem totals_cons (j : CommandJob) (js : List CommandJob) :
    totals (j :: js) = j.commands.length :: totals js := rfl

theorem sumTotals_cons (j : CommandJob) (js : List CommandJob) :
    sumTotals (j :: js) = j.commands.length + sumTotals js := by
  simp [sumTotals, totals_cons]

theorem flattenCommands_cons (j : CommandJob) (js : List CommandJob) :
    flattenCommands (j :: js) = j.commands ++ flattenCommands js := rfl

theorem totals_length (jobs : List CommandJob) :
    (totals jobs).length = jobs.length := by
  simp [totals]

theorem flattenCommands_length (jobs : List CommandJob) :
    (flattenCommands jobs).length = sumTotals jobs := by
  simp [flattenCommands, sumTotals, totals, List.length_flatten, List.map_map]
  rfl

theorem totals_getD (jobs : List CommandJob) (i : Nat) (h : i < jobs.length) :
    (totals jobs).getD i 0 = (jobs.getD i default).commands.length := by
  induction jobs generalizing i with
  | nil => simp at h
  | cons j js ih =>
    cases i with
    | zero => simp [totals_cons]
    | succ k =>
      simp only [totals_cons, List.getD_cons_succ]
      exact ih k (by simpa using h)

theorem set_getD_self (l : List Bool) (i : Nat) (h : i < l.length) :
    l.set i (l.getD i false) = l := by
  induction l generalizing i with
  | nil => simp at h
  | cons a as ih =>
    cases i with
    | zero => simp
    | succ k =>
      have hk := ih k (by simpa using h)
      simp only [List.getD_cons_succ, List.set_cons_succ]
      rw [hk]

theorem firstUnfinished_lt (l : List Bool) (i : Nat)
    (h : firstUnfinished l = some i) : i < l.length := by
  induction l generalizing i with
  | nil => simp [firstUnfinished] at h
  | cons f fs ih =>
    by_cases hf : f
    · simp only [firstUnfinished, hf, if_true, Option.map_eq_some'] at h
      obtain ⟨i', hi', rfl⟩ := h
      simpa using Nat.succ_lt_succ (ih i' hi')
    · simp only [firstUnfinished, hf, if_false] at h
      cases h
      simp

theorem firstUnfinished_none_iff (l : List Bool) :
    firstUnfinished l = none ↔ ∀ f ∈ l, f = true := by
  induction l with
  | nil => simp [firstUnfinished]
  | cons f fs ih =>
    by_cases hf : f
    · subst hf
      simp [firstUnfinished, Option.map_eq_none', ih]
    · simp only [Bool.not_eq_true] at hf
      subst hf
      simp [firstUnfinished]

theorem canonCompleted_length (ts : List Nat) (n : Nat) :
    (canonCompleted ts n).length = ts.length := by
  induction ts generalizing n with
  | nil => rfl
  | cons t ts ih => simp [canonCompleted, ih]

theorem canonFlags_length (ts : List Nat) (n : Nat) :
    (canonFlags ts n).length = ts.length := by
  simp [canonFlags, canonCompleted_length]

theorem canonCompleted_zero (ts : List Nat) :
    canonCompleted ts 0 = List.replicate ts.length 0 := by
  induction ts with
  | nil => rfl
  | cons t ts ih => simp [canonCompleted, ih, List.replicate_succ]

theorem canonCompleted_sum (ts : List Nat) (n : Nat) (h : n ≤ ts.sum) :
    (canonCompleted ts n).sum = n := by
  induction ts generalizing n with
  | nil => simp at h; simp [canonCompleted, h]
  | cons t ts ih =>
    simp only [canonCompleted, List.sum_cons]
    rcases Nat.le_total t n with ht | ht
    · rw [Nat.min_eq_left ht, ih (n - t) (by simp [List.sum_cons] at h; omega)]
      omega
    · rw [Nat.min_eq_right ht, Nat.sub_self]
      rw [canonCompleted_zero]
      simp

theorem canonCompleted_full (ts : List Nat) (n : Nat) (h : ts.sum ≤ n) :
    canonCompleted ts n = ts := by
  induction ts generalizing n with
  | nil => rfl
  | cons t ts ih =>
    simp only [List.sum_cons] at h
    simp only [canonCompleted]
    rw [Nat.min_eq_left (by omega), ih (n - t) (by omega)]

theorem canonFlags_zero (ts : List Nat) (h : ∀ t ∈ ts, t ≠ 0) :
    canonFlags ts 0 = List.replicate ts.length false := by
  induction ts with
  | nil => rfl
  | cons t ts ih =>
    have ht : ¬ (t ≤ 0) := by
      have := h t (by simp)
      omega
    simp only [canonFlags, canonCompleted, Nat.min_zero, Nat.sub_self,
      List.zipWith_cons_cons, List.replicate_succ]
    rw [decide_eq_false ht]
    congr 1
    exact ih fun t ht => h t (by simp [ht])

theorem canonFlags_all_iff (ts : List Nat) (n : Nat) :
    ((canonFlags ts n).all (fun f => f) = true) ↔ ts.sum ≤ n := by
  induction ts generalizing n with
  | nil => simp [canonFlags, canonCompleted]
  | cons t ts ih =>
    have ihtail := ih (n - min t n)
    simp only [canonFlags, canonCompleted, List.zipWith_cons_cons, List.all_cons,
      Bool.and_eq_true, decide_eq_true_eq, List.sum_cons] at ihtail ⊢
    rcases Nat.le_total t n with ht | ht
    · rw [Nat.min_eq_left ht] at ihtail ⊢
      constructor
      · rintro ⟨h1, h2⟩
        have := ihtail.mp h2
        omega
      · intro h
        exact ⟨Nat.le_refl t, ihtail.mpr (by omega)⟩
    · rw [Nat.min_eq_right ht] at ihtail ⊢
      rw [Nat.sub_self] at ihtail ⊢
      constructor
      · rintro ⟨h1, h2⟩
        have := ihtail.mp h2
        omega
      · intro h
        exact ⟨by omega, ihtail.mpr (by omega)⟩

theorem canonFlags_getD (ts : List Nat) (n i : Nat) (h : i < ts.length) :
    (canonFlags ts n).getD i false =
      decide (ts.getD i 0 ≤ (canonCompleted ts n).getD i 0) := by
  induction ts generalizing n i with
  | nil => simp at h
  | cons t ts ih =>
    cases i with
    | zero => simp [canonFlags, canonCompleted]
    | succ k =>
      simp only [canonFlags, canonCompleted, List.zipWith_cons_cons,
        List.getD_cons_succ]
      exact ih (n - min t n) k (by simpa using h)

theorem canonCompleted_cons (t : Nat) (ts : List Nat) (n : Nat) :
    canonCompleted (t :: ts) n = min t n :: canonCompleted ts (n - min t n) := rfl

theorem canonFlags_cons (t : Nat) (ts : List Nat) (n : Nat) :
    canonFlags (t :: ts) n =
      decide (t ≤ min t n) :: canonFlags ts (n - min t n) := rfl

theorem firstUnfinished_cons (f : Bool) (fs : List Bool) :
    firstUnfinished (f :: fs) =
      if f then (firstUnfinished fs).map (· + 1) else some 0 := rfl

theorem canon_step (jobs : List CommandJob) (n : Nat) (hn : n < sumTotals jobs) :
    ∃ i,
      firstUnfinished (canonFlags (totals jobs) n) = some i ∧
      i < jobs.length ∧
      (∀ j, j < i →
        (canonCompleted (totals jobs) n).getD j 0 = (totals jobs).getD j 0) ∧
      (canonCompleted (totals jobs) n).getD i 0 <
        (jobs.getD i default).commands.length ∧
      (jobs.getD i default).commands[(canonCompleted (totals jobs) n).getD i 0]? =
        (flattenCommands jobs)[n]? ∧
      canonCompleted (totals jobs) (n + 1) =
        (canonCompleted (totals jobs) n).set i
          ((canonCompleted (totals jobs) n).getD i 0 + 1) ∧
      canonFlags (totals jobs) (n + 1) =
        (canonFlags (totals jobs) n).set i
          (decide ((jobs.getD i default).commands.length ≤
            (canonCompleted (totals jobs) n).getD i 0 + 1)) := by
  induction jobs generalizing n with
  | nil => simp [sumTotals, totals] at hn
  | cons job rest ih =>
    rcases Nat.lt_or_ge n job.commands.length with h | h
    · have hmin : min job.commands.length n = n := Nat.min_eq_right (Nat.le_of_lt h)
      have hmin1 : min job.commands.length (n + 1) = n + 1 := Nat.min_eq_right h
      refine ⟨0, ?_, by simp, fun j hj => absurd hj (Nat.not_lt_zero j),
        ?_, ?_, ?_, ?_⟩
      · simp [totals_cons, canonFlags_cons, hmin, firstUnfinished_cons,
          Nat.not_le.mpr h]
      · simp [totals_cons, canonCompleted_cons, hmin, h]
      · simp only [totals_cons, canonCompleted_cons, hmin, List.getD_cons_zero,
          flattenCommands_cons]
        exact (List.getElem?_append_left h).symm
      · simp [totals_cons, canonCompleted_cons, hmin, hmin1, Nat.sub_self,
          List.set_cons_zero]
      · simp [totals_cons, canonFlags_cons, canonCompleted_cons, hmin, hmin1,
          Nat.sub_self, List.set_cons_zero]
    · have hmin : min job.commands.length n = job.commands.length :=
        Nat.min_eq_left h
      have hn' : n - job.commands.length < sumTotals rest := by
        rw [sumTotals_cons] at hn; omega
      obtain ⟨i, h1, h2, h3, h4, h5, h6, h7⟩ := ih (n - job.commands.length) hn'
      have hsub : n + 1 - job.commands.length = (n - job.commands.length) + 1 :=
        Nat.succ_sub h
      have hmin1 : min job.commands.length (n + 1) = job.commands.length :=
        Nat.min_eq_left (Nat.le_succ_of_le h)
      refine ⟨i + 1, ?_, by simpa using Nat.succ_lt_succ h2, ?_, ?_, ?_, ?_, ?_⟩
      · simp only [totals_cons, canonFlags_cons, hmin, firstUnfinished_cons]
        rw [if_pos (by simp), h1]
        rfl
      · intro j hj
        cases j with
        | zero => simp [totals_cons, canonCompleted_cons, hmin]
        | succ k =>
          simp only [totals_cons, canonCompleted_cons, hmin, List.getD_cons_succ]
          exact h3 k (by omega)
      · simpa [totals_cons, canonCompleted_cons, hmin] using h4
      · simp only [totals_cons, canonCompleted_cons, hmin, List.getD_cons_succ,
          flattenCommands_cons]
        rw [List.getElem?_append_right h]
        exact h5
      · simp only [totals_cons, canonCompleted_cons, hmin, hmin1, hsub,
          List.set_cons_succ, List.getD_cons_succ]
        rw [h6]
      · simp only [totals_cons, canonFlags_cons, canonCompleted_cons, hmin, hmin1,
          hsub, List.set_cons_succ, List.getD_cons_succ]
        rw [h7]

theorem getD_set_self (l : List Bool) (i : Nat) (a : Bool) (h : i < l.length) :
    (l.set i a).getD i false = a := by
  rw [List.getD_eq_getElem?_getD, List.getElem?_set_self h]
  rfl

theorem runStep_canon_ok (env : Nat → CmdBehavior) (jobs : List CommandJob)
    (n : Nat) (s : RunState) (hn : n < sumTotals jobs) (hs : Canon jobs n s)
    (henv : (env n).returncode = 0) :
    ∃ s', runStep env jobs s = .cont s' ∧ Canon jobs (n + 1) s' := by
  obtain ⟨hcomp, hflags, htc, htf, hout, herr, htr⟩ := hs
  obtain ⟨i, h1, h2, h3, h4, h5, h6, h7⟩ := canon_step jobs n hn
  have htlen : (totals jobs).length = jobs.length := totals_length jobs
  have hflen : (flattenCommands jobs).length = sumTotals jobs :=
    flattenCommands_length jobs
  have htrlen : s.trace.length = n := by
    rw [htr, List.length_take, hflen]
    omega
  have hfu : firstUnfinished s.flags = some i := by rw [hflags]; exact h1
  have hc : s.completed.getD i 0 = (canonCompleted (totals jobs) n).getD i 0 := by
    rw [hcomp]
  obtain ⟨cmd, hcmd⟩ :
      ∃ cmd, (jobs.getD i default).commands[s.completed.getD i 0]? = some cmd := by
    rw [hc]
    exact ⟨_, List.getElem?_eq_getElem h4⟩
  have hflagslen : s.flags.length = jobs.length := by
    rw [hflags, canonFlags_length, htlen]
  have hflag_i : s.flags.getD i false = false := by
    rw [hflags, canonFlags_getD _ _ _ (htlen ▸ h2), totals_getD jobs i h2]
    exact decide_eq_false (Nat.not_le.mpr h4)
  have hsff1 : setFinishedFlag s.flags i (s.completed.getD i 0)
      (jobs.getD i default).commands.length = s.flags := by
    unfold setFinishedFlag
    rw [hflag_i, hc]
    rw [decide_eq_false (Nat.not_le.mpr h4)]
    rw [show (false || false) = false from rfl]
    rw [← hflag_i]
    exact set_getD_self s.flags i (hflagslen ▸ h2)
  have hsff2 : setFinishedFlag s.flags i (s.completed.getD i 0 + 1)
      (jobs.getD i default).commands.length =
      s.flags.set i (decide ((jobs.getD i default).commands.length ≤
        s.completed.getD i 0 + 1)) := by
    unfold setFinishedFlag
    rw [hflag_i, Bool.false_or]
  have hfl : (flattenCommands jobs)[n]? = some cmd := by
    rw [← h5, ← hc]
    exact hcmd
  have htake : (flattenCommands jobs).take (n + 1) =
      (flattenCommands jobs).take n ++ [cmd] := by
    rw [List.take_succ, hfl]
    rfl
  have hcanon : ∀ ds : List (Nat × Str), Canon jobs (n + 1)
      { completed := s.completed.set i (s.completed.getD i 0 + 1)
        flags := s.flags.set i
          (decide ((jobs.getD i default).commands.length ≤ s.completed.getD i 0 + 1))
        totalCompleted := s.totalCompleted + 1
        totalFlag := s.totalFlag || decide (sumTotals jobs ≤ s.totalCompleted + 1)
        stdoutT := []
        stderrT := []
        trace := s.trace ++ [cmd]
        sinkLog := s.sinkLog ++ [(s.stdoutT, s.stderrT)]
        descs := ds } := by
    intro ds
    refine ⟨?_, ?_, ?_, ?_, rfl, rfl, ?_⟩
    · show s.completed.set i (s.completed.getD i 0 + 1) =
        canonCompleted (totals jobs) (n + 1)
      rw [hcomp]
      exact h6.symm
    · show s.flags.set i (decide ((jobs.getD i default).commands.length ≤
        s.completed.getD i 0 + 1)) = canonFlags (totals jobs) (n + 1)
      rw [hflags, hc]
      exact h7.symm
    · show s.totalCompleted + 1 = n + 1
      rw [htc]
    · show (s.totalFlag || decide (sumTotals jobs ≤ s.totalCompleted + 1)) =
        decide (sumTotals jobs ≤ n + 1)
      rw [htf, htc, decide_eq_false (Nat.not_le.mpr hn), Bool.false_or]
    · show s.trace ++ [cmd] = (flattenCommands jobs).take (n + 1)
      rw [htr, htake]
  unfold runStep
  rw [hfu]
  simp only [hcmd, execute_display]
  rw [hsff1, hsff2, htrlen, henv]
  rw [if_neg (show ¬((0 : Int) ≠ 0) from fun hh => hh rfl)]
  have hcond : ((s.flags.set i (decide ((jobs.getD i default).commands.length ≤
      s.completed.getD i 0 + 1))).getD i false) =
      decide ((jobs.getD i default).commands.length ≤ s.completed.getD i 0 + 1) :=
    getD_set_self s.flags i _ (hflagslen ▸ h2)
  by_cases hgreen : (jobs.getD i default).commands.length ≤ s.completed.getD i 0 + 1
  · rw [if_pos (by rw [hcond]; exact decide_eq_true hgreen)]
    exact ⟨_, rfl, hcanon _⟩
  · rw [if_neg (by rw [hcond, decide_eq_false hgreen]; simp)]
    exact ⟨_, rfl, hcanon _⟩

theorem runStep_canon_fail (env : Nat → CmdBehavior) (jobs : List CommandJob)
    (n : Nat) (s : RunState) (hn : n < sumTotals jobs) (hs : Canon jobs n s)
    (henv : (env n).returncode ≠ 0) :
    ∃ cmd s', (flattenCommands jobs)[n]? = some cmd ∧
      runStep env jobs s = .failedStep
        ⟨cmd, (env n).returncode,
         (env n).stdoutLines.flatten, (env n).stderrLines.flatten⟩ s' ∧
      s'.trace = (flattenCommands jobs).take (n + 1) := by
  obtain ⟨hcomp, hflags, htc, htf, hout, herr, htr⟩ := hs
  obtain ⟨i, h1, h2, h3, h4, h5, h6, h7⟩ := canon_step jobs n hn
  have htlen : (totals jobs).length = jobs.length := totals_length jobs
  have hflen : (flattenCommands jobs).length = sumTotals jobs :=
    flattenCommands_length jobs
  have htrlen : s.trace.length = n := by
    rw [htr, List.length_take, hflen]
    omega
  have hfu : firstUnfinished s.flags = some i := by rw [hflags]; exact h1
  have hc : s.completed.getD i 0 = (canonCompleted (totals jobs) n).getD i 0 := by
    rw [hcomp]
  obtain ⟨cmd, hcmd⟩ :
      ∃ cmd, (jobs.getD i default).commands[s.completed.getD i 0]? = some cmd := by
    rw [hc]
    exact ⟨_, List.getElem?_eq_getElem h4⟩
  have hfl : (flattenCommands jobs)[n]? = some cmd := by
    rw [← h5, ← hc]
    exact hcmd
  have htake : (flattenCommands jobs).take (n + 1) =
      (flattenCommands jobs).take n ++ [cmd] := by
    rw [List.take_succ, hfl]
    rfl
  unfold runStep
  rw [hfu]
  simp only [hcmd, execute_display]
  rw [htrlen, hout, herr]
  rw [if_pos henv]
  refine ⟨cmd, _, hfl, rfl, ?_⟩
  show s.trace ++ [cmd] = (flattenCommands jobs).take (n + 1)
  rw [htr, htake]

theorem progressFinished_canon_done (jobs : List CommandJob) (s : RunState)
    (hs : Canon jobs (sumTotals jobs) s) : progressFinished s = true := by
  obtain ⟨_, hflags, _, htf, _, _, _⟩ := hs
  unfold progressFinished
  rw [hflags, htf,
    (canonFlags_all_iff (totals jobs) (sumTotals jobs)).mpr (Nat.le_refl _),
    decide_eq_true (Nat.le_refl _)]
  rfl

theorem progressFinished_canon_lt (jobs : List CommandJob) (n : Nat) (s : RunState)
    (hs : Canon jobs n s) (hn : n < sumTotals jobs) :
    progressFinished s = false := by
  obtain ⟨_, _, _, htf, _, _, _⟩ := hs
  unfold progressFinished
  rw [htf, decide_eq_false (Nat.not_le.mpr hn), Bool.and_false]

theorem sumTotals_pos (jobs : List CommandJob) (h1 : jobs ≠ [])
    (h2 : ∀ job ∈ jobs, job.commands ≠ []) : 0 < sumTotals jobs := by
  cases jobs with
  | nil => exact absurd rfl h1
  | cons j js =>
    rw [sumTotals_cons]
    have hj := h2 j (by simp)
    have : j.commands.length ≠ 0 := by simpa [List.length_eq_zero] using hj
    omega

theorem initState_canon (jobs : List CommandJob) (h1 : jobs ≠ [])
    (h2 : ∀ job ∈ jobs, job.commands ≠ []) : Canon jobs 0 (initState jobs) := by
  have hpos := sumTotals_pos jobs h1 h2
  have hts : ∀ t ∈ totals jobs, t ≠ 0 := by
    intro t ht
    simp only [totals, List.mem_map] at ht
    obtain ⟨job, hjob, rfl⟩ := ht
    simpa [List.length_eq_zero] using h2 job hjob
  refine ⟨?_, ?_, rfl, ?_, rfl, rfl, rfl⟩
  · show List.replicate jobs.length 0 = canonCompleted (totals jobs) 0
    rw [canonCompleted_zero, totals_length]
  · show List.replicate jobs.length false = canonFlags (totals jobs) 0
    rw [canonFlags_zero _ hts, totals_length]
  · show false = decide (sumTotals jobs ≤ 0)
    rw [decide_eq_false (by omega)]

theorem runLoop_canon_ok (env : Nat → CmdBehavior) (jobs : List CommandJob) :
    ∀ (fuel n : Nat) (s : RunState), Canon jobs n s → n ≤ sumTotals jobs →
    sumTotals jobs - n < fuel →
    (∀ k, n ≤ k → k < sumTotals jobs → (env k).returncode = 0) →
    ∃ s', runLoop env jobs s fuel = .ok s' ∧ Canon jobs (sumTotals jobs) s' := by
  intro fuel
  induction fuel with
  | zero =>
    intro n s _ _ hf _
    omega
  | succ fuel ih =>
    intro n s hs hn hf henv
    rcases Nat.lt_or_ge n (sumTotals jobs) with hlt | hge
    · have hnf : progressFinished s = false := progressFinished_canon_lt jobs n s hs hlt
      obtain ⟨s₂, hstep, hs₂⟩ :=
        runStep_canon_ok env jobs n s hlt hs (henv n (Nat.le_refl n) hlt)
      obtain ⟨s', hrun, hcan⟩ := ih (n + 1) s₂ hs₂ hlt (by omega)
        (fun k hk1 hk2 => henv k (by omega) hk2)
      refine ⟨s', ?_, hcan⟩
      unfold runLoop
      rw [if_neg (by simp [hnf]), hstep]
      exact hrun
    · have heq : n = sumTotals jobs := Nat.le_antisymm hn hge
      subst heq
      have hfin := progressFinished_canon_done jobs s hs
      refine ⟨s, ?_, hs⟩
      unfold runLoop
      rw [if_pos hfin]

theorem runLoop_canon_fail (env : Nat → CmdBehavior) (jobs : List CommandJob)
    (k : Nat) (hk : k < sumTotals jobs) (hfail : (env k).returncode ≠ 0) :
    ∀ (fuel n : Nat) (s : RunState), Canon jobs n s → n ≤ k → k - n < fuel →
    (∀ j, n ≤ j → j < k → (env j).returncode = 0) →
    ∃ cmd s', (flattenCommands jobs)[k]? = some cmd ∧
      runLoop env jobs s fuel = .failed
        ⟨cmd, (env k).returncode, (env k).stdoutLines.flatten,
         (env k).stderrLines.flatten⟩ s' ∧
      s'.trace = (flattenCommands jobs).take (k + 1) := by
  intro fuel
  induction fuel with
  | zero =>
    intro n s _ _ hf _
    omega
  | succ fuel ih =>
    intro n s hs hn hf henv
    have hlt : n < sumTotals jobs := Nat.lt_of_le_of_lt hn hk
    have hnf : progressFinished s = false := progressFinished_canon_lt jobs n s hs hlt
    rcases Nat.eq_or_lt_of_le hn with heq | hlt2
    · subst heq
      obtain ⟨cmd, s₂, hfl, hstep, htr₂⟩ :=
        runStep_canon_fail env jobs n s hlt hs hfail
      refine ⟨cmd, s₂, hfl, ?_, htr₂⟩
      unfold runLoop
      rw [if_neg (by simp [hnf]), hstep]
    · obtain ⟨s₂, hstep, hs₂⟩ :=
        runStep_canon_ok env jobs n s hlt hs (henv n (Nat.le_refl n) hlt2)
      obtain ⟨cmd, s', hfl, hrun, htr'⟩ := ih (n + 1) s₂ hs₂ hlt2 (by omega)
        (fun j hj1 hj2 => henv j (by omega) hj2)
      refine ⟨cmd, s', hfl, ?_, htr'⟩
      unfold runLoop
      rw [if_neg (by simp [hnf]), hstep]
      exact hrun

theorem getD_of_lt (l : List CommandJob) (i : Nat) (h : i < l.length) :
    l[i]? = some (l.getD i default) := by
  rw [List.getD_eq_getElem?_getD, List.getElem?_eq_getElem h]
  rfl

theorem runStep_cont_inv (env : Nat → CmdBehavior) (jobs : List CommandJob)
    (s s₂ : RunState) (hlen : s.flags.length = jobs.length)
    (h : runStep env jobs s = .cont s₂) :
    s₂.stdoutT = [] ∧ s₂.stderrT = [] ∧
    s₂.sinkLog = s.sinkLog ++ [(s.stdoutT, s.stderrT)] ∧
    s₂.flags.length = jobs.length ∧
    (∀ p ∈ s₂.descs, p ∈ s.descs ∨ descOk jobs p) := by
  cases hfu : firstUnfinished s.flags with
  | none =>
    unfold runStep at h
    rw [hfu] at h
    simp at h
  | some i =>
    have hi : i < jobs.length := hlen ▸ firstUnfinished_lt s.flags i hfu
    cases hcmd : (jobs.getD i default).commands[s.completed.getD i 0]? with
    | none =>
      unfold runStep at h
      rw [hfu] at h
      simp only [hcmd] at h
      simp at h
    | some cmd =>
      unfold runStep at h
      rw [hfu] at h
      simp only [hcmd, execute_display] at h
      by_cases hrc : (env s.trace.length).returncode ≠ 0
      · rw [if_pos hrc] at h
        simp at h
      · rw [if_neg hrc] at h
        simp only [StepResult.cont.injEq] at h
        subst h
        have hmem : ∀ p ∈ (if (setFinishedFlag (setFinishedFlag s.flags i
            (s.completed.getD i 0) (jobs.getD i default).commands.length) i
            (s.completed.getD i 0 + 1) (jobs.getD i default).commands.length).getD
              i false = true then
            s.descs ++ [(i, ljust (jobs.getD i default).title
                (max_job_title_length jobs + 2) ++ str "[yellow]" ++ joinSpace cmd)] ++
              [(i, ljust (jobs.getD i default).title
                (max_job_title_length jobs + 2) ++ str "[green]" ++
                (jobs.getD i default).finish_message)]
          else
            s.descs ++ [(i, ljust (jobs.getD i default).title
              (max_job_title_length jobs + 2) ++ str "[yellow]" ++ joinSpace cmd)]),
            p ∈ s.descs ∨ descOk jobs p := by
          intro p hp
          have hok1 : descOk jobs (i, ljust (jobs.getD i default).title
              (max_job_title_length jobs + 2) ++ str "[yellow]" ++ joinSpace cmd) :=
            ⟨jobs.getD i default, str "[yellow]" ++ joinSpace cmd, getD_of_lt jobs i hi,
              by rw [List.append_assoc]⟩
          have hok2 : descOk jobs (i, ljust (jobs.getD i default).title
              (max_job_title_length jobs + 2) ++ str "[green]" ++
              (jobs.getD i default).finish_message) :=
            ⟨jobs.getD i default, str "[green]" ++ (jobs.getD i default).finish_message,
              getD_of_lt jobs i hi, by rw [List.append_assoc]⟩
          split at hp
          · simp only [List.mem_append, List.mem_singleton] at hp
            rcases hp with (hp3 | rfl) | rfl
            · exact .inl hp3
            · exact .inr hok1
            · exact .inr hok2
          · simp only [List.mem_append, List.mem_singleton] at hp
            rcases hp with hp3 | rfl
            · exact .inl hp3
            · exact .inr hok1
        by_cases hgr : (setFinishedFlag (setFinishedFlag s.flags i
            (s.completed.getD i 0) (jobs.getD i default).commands.length) i
            (s.completed.getD i 0 + 1) (jobs.getD i default).commands.length).getD
              i false = true
        · rw [if_pos hgr] at hmem ⊢
          refine ⟨rfl, rfl, rfl, ?_, hmem⟩
          simp [setFinishedFlag, List.length_set, hlen]
        · rw [if_neg hgr] at hmem ⊢
          refine ⟨rfl, rfl, rfl, ?_, hmem⟩
          simp [setFinishedFlag, List.length_set, hlen]

theorem runStep_failed_inv (env : Nat → CmdBehavior) (jobs : List CommandJob)
    (s s₂ : RunState) (e : ProcessFailure) (hlen : s.flags.length = jobs.length)
    (h : runStep env jobs s = .failedStep e s₂) :
    e.output = s.stdoutT ++ (env s.trace.length).stdoutLines.flatten ∧
    e.stderr = s.stderrT ++ (env s.trace.length).stderrLines.flatten ∧
    s₂.trace.length = s.trace.length + 1 ∧
    s₂.sinkLog = s.sinkLog ++ [(s.stdoutT, s.stderrT)] ∧
    (∀ p ∈ s₂.descs, p ∈ s.descs ∨ descOk jobs p) := by
  cases hfu : firstUnfinished s.flags with
  | none =>
    unfold runStep at h
    rw [hfu] at h
    simp at h
  | some i =>
    have hi : i < jobs.length := hlen ▸ firstUnfinished_lt s.flags i hfu
    cases hcmd : (jobs.getD i default).commands[s.completed.getD i 0]? with
    | none =>
      unfold runStep at h
      rw [hfu] at h
      simp only [hcmd] at h
      simp at h
    | some cmd =>
      unfold runStep at h
      rw [hfu] at h
      simp only [hcmd, execute_display] at h
      by_cases hrc : (env s.trace.length).returncode ≠ 0
      · rw [if_pos hrc] at h
        simp only [StepResult.failedStep.injEq] at h
        obtain ⟨he, hs₂⟩ := h
        subst he
        subst hs₂
        refine ⟨rfl, rfl, by simp, rfl, ?_⟩
        intro p hp
        simp only [List.mem_append, List.mem_singleton] at hp
        rcases hp with hp3 | rfl
        · exact .inl hp3
        · exact .inr ⟨jobs.getD i default, str "[yellow]" ++ joinSpace cmd,
            getD_of_lt jobs i hi, by rw [List.append_assoc]⟩
      · rw [if_neg hrc] at h
        simp at h

theorem runLoop_buffer (env : Nat → CmdBehavior) (jobs : List CommandJob) :
    ∀ (fuel : Nat) (s : RunState), s.stdoutT = [] → s.stderrT = [] →
    sinkLogClean s = true → s.flags.length = jobs.length →
    bufferReport env (runLoop env jobs s fuel) = true := by
  intro fuel
  induction fuel with
  | zero =>
    intro s _ _ _ _
    rfl
  | succ fuel ih =>
    intro s hout herr hlog hlen
    unfold runLoop
    by_cases hfin : progressFinished s = true
    · rw [if_pos hfin]
      exact hlog
    · rw [if_neg hfin]
      cases hstep : runStep env jobs s with
      | stopIter => rfl
      | indexErr => rfl
      | failedStep e s₂ =>
        obtain ⟨he1, he2, htl, hsl, _⟩ :=
          runStep_failed_inv env jobs s s₂ e hlen hstep
        show (sinkLogClean s₂ &&
          decide (e.output = (env (s₂.trace.length - 1)).stdoutLines.flatten) &&
          decide (e.stderr = (env (s₂.trace.length - 1)).stderrLines.flatten)) = true
        have hcl : sinkLogClean s₂ = true := by
          unfold sinkLogClean at hlog ⊢
          rw [hsl, hout, herr]
          simp [List.all_append, hlog]
        rw [hcl]
        have hidx : s₂.trace.length - 1 = s.trace.length := by omega
        rw [hidx, he1, he2, hout, herr]
        simp
      | cont s₂ =>
        obtain ⟨h1, h2, h3, h4, _⟩ := runStep_cont_inv env jobs s s₂ hlen hstep
        have hcl : sinkLogClean s₂ = true := by
          unfold sinkLogClean at hlog ⊢
          rw [h3, hout, herr]
          simp [List.all_append, hlog]
        exact ih s₂ h1 h2 hcl h4

theorem runLoop_descs (env : Nat → CmdBehavior) (jobs : List CommandJob) :
    ∀ (fuel : Nat) (s : RunState), s.flags.length = jobs.length →
    (∀ p ∈ s.descs, descOk jobs p) →
    ∀ p ∈ descsOf (runLoop env jobs s fuel), descOk jobs p := by
  intro fuel
  induction fuel with
  | zero =>
    intro s _ _ p hp
    simp [runLoop, descsOf] at hp
  | succ fuel ih =>
    intro s hlen hdescs
    unfold runLoop
    by_cases hfin : progressFinished s = true
    · rw [if_pos hfin]
      exact hdescs
    · rw [if_neg hfin]
      cases hstep : runStep env jobs s with
      | stopIter =>
        intro p hp
        simp [descsOf] at hp
      | indexErr =>
        intro p hp
        simp [descsOf] at hp
      | failedStep e s₂ =>
        obtain ⟨_, _, _, _, hd⟩ := runStep_failed_inv env jobs s s₂ e hlen hstep
        intro p hp
        rcases hd p hp with hin | hok
        · exact hdescs p hin
        · exact hok
      | cont s₂ =>
        obtain ⟨_, _, _, h4, hd⟩ := runStep_cont_inv env jobs s s₂ hlen hstep
        refine ih s₂ h4 ?_
        intro p hp
        rcases hd p hp with hin | hok
        · exact hdescs p hin
        · exact hok

theorem foldl_max_init (l : List Nat) (a : Nat) : a ≤ l.foldl max a := by
  induction l generalizing a with
  | nil => exact Nat.le_refl a
  | cons x xs ih => exact Nat.le_trans (Nat.le_max_left a x) (ih (max a x))

theorem le_foldl_max (l : List Nat) (a b : Nat) (h : b ∈ l) : b ≤ l.foldl max a := by
  induction l generalizing a with
  | nil => simp at h
  | cons x xs ih =>
    rcases List.mem_cons.mp h with rfl | hx
    · exact Nat.le_trans (Nat.le_max_right a b) (foldl_max_init xs (max a b))
    · exact ih (max a x) hx

theorem title_le_max (jobs : List CommandJob) (job : CommandJob) (h : job ∈ jobs) :
    job.title.length ≤ max_job_title_length jobs :=
  le_foldl_max _ 0 _ (List.mem_map_of_mem _ h)

theorem ljust_length (s : Str) (w : Nat) (h : s.length ≤ w) :
    (ljust s w).length = w := by
  simp only [ljust, List.length_append, List.length_replicate]
  omega

/-! The claims. -/

/-- C4: for every command, `execute` returns, on child exit code 0, the
captured stdout with a single trailing newline stripped when present and
otherwise unchanged; on any non-zero exit code it fails with a
`ProcessFailure` carrying the command, exit code and captured
stdout/stderr — one `subprocess.run` call, no retry. -/
theorem execute_spec (args : List Str) (r : SubprocessResult) :
    (r.returncode = 0 → ∃ out, execute args r = .ok out ∧
      ((r.stdout.getLast? = some '\n' ∧ out ++ ['\n'] = r.stdout) ∨
       (r.stdout.getLast? ≠ some '\n' ∧ out = r.stdout))) ∧
    (r.returncode ≠ 0 →
      execute args r = .error ⟨args, r.returncode, r.stdout, r.stderr⟩) := by
  constructor
  · intro h0
    refine ⟨stripTrailingNewline r.stdout, ?_, ?_⟩
    · unfold execute
      rw [if_neg (by simp [h0])]
    · unfold stripTrailingNewline
      by_cases hl : r.stdout.getLast? = some '\n'
      · rw [if_pos hl]
        refine .inl ⟨hl, ?_⟩
        have hne' : r.stdout ≠ [] := by
          intro hemp
          rw [hemp] at hl
          simp at hl
        have hlast : r.stdout.getLast hne' = '\n' := by
          have hq := List.getLast?_eq_getLast r.stdout hne'
          rw [hl] at hq
          exact (Option.some.inj hq).symm
        conv_rhs => rw [← List.dropLast_append_getLast hne']
        rw [hlast]
      · rw [if_neg hl]
        exact .inr ⟨hl, rfl⟩
  · intro hne
    unfold execute
    rw [if_pos hne]

/-- Witness for C4 at exit code 0 with stdout `"out\n"`: the newline is
stripped. -/
theorem execute_spec_wit :
    ∃ out, execute [str "c"] ⟨0, str "out\n", str ""⟩ = .ok out ∧
      (((str "out\n").getLast? = some '\n' ∧ out ++ ['\n'] = str "out\n") ∨
       ((str "out\n").getLast? ≠ some '\n' ∧ out = str "out\n")) :=
  (execute_spec [str "c"] ⟨0, str "out\n", str ""⟩).1 rfl

/-- C5: `execute_display` leaves each sink holding its previous contents
plus all of the command's lines for that stream (the readers are joined
before the outcome is reported — the seventh trace event, the only outcome
event, follows both `joinReader` events); a non-zero exit code yields a
`ProcessFailure` whose `output`/`stderr` are exactly the final sink
contents and whose command and code are the failed process's; exit code 0
yields no failure. -/
theorem execute_display_spec (cmd : List Str) (b : CmdBehavior) (out0 err0 : Str) :
    (execute_display cmd b out0 err0).1 = out0 ++ b.stdoutLines.flatten ∧
    (execute_display cmd b out0 err0).2.1 = err0 ++ b.stderrLines.flatten ∧
    (b.returncode ≠ 0 → (execute_display cmd b out0 err0).2.2 =
      some ⟨cmd, b.returncode, out0 ++ b.stdoutLines.flatten,
        err0 ++ b.stderrLines.flatten⟩) ∧
    (b.returncode = 0 → (execute_display cmd b out0 err0).2.2 = none) ∧
    (∃ outcome, execute_display_events false b.returncode =
      [.spawn, .startReader true, .startReader false, .waitReturn,
       .joinReader true, .joinReader false] ++ [outcome] ∧
      (b.returncode ≠ 0 → outcome = .raiseFailure) ∧
      (b.returncode = 0 → outcome = .ret)) := by
  refine ⟨rfl, rfl, ?_, ?_, ?_⟩
  · intro h
    show (if b.returncode ≠ 0 then
      some (⟨cmd, b.returncode, out0 ++ b.stdoutLines.flatten,
        err0 ++ b.stderrLines.flatten⟩ : ProcessFailure) else none) = _
    rw [if_pos h]
  · intro h
    show (if b.returncode ≠ 0 then
      some (⟨cmd, b.returncode, out0 ++ b.stdoutLines.flatten,
        err0 ++ b.stderrLines.flatten⟩ : ProcessFailure) else none) = none
    rw [if_neg (by simp [h])]
  · by_cases h : b.returncode = 0
    · refine ⟨.ret, ?_, fun hne => absurd h hne, fun _ => rfl⟩
      unfold execute_display_events
      rw [if_neg (by simp), if_neg (by simp), if_neg (by simp [h])]
      rfl
    · refine ⟨.raiseFailure, ?_, fun _ => rfl, fun heq => absurd heq h⟩
      unfold execute_display_events
      rw [if_neg (by simp), if_neg (by simp), if_pos h]
      rfl

/-- Witness for C5 at a concrete failing command: the failure carries the
final sink contents. -/
theorem execute_display_spec_wit :
    (execute_display [str "c"] ⟨[str "o\n"], [str "e"], 2⟩ [] []).2.2 =
      some ⟨[str "c"], 2, [] ++ [str "o\n"].flatten, [] ++ [str "e"].flatten⟩ :=
  (execute_display_spec [str "c"] ⟨[str "o\n"], [str "e"], 2⟩ [] []).2.2.1
    (by decide)

/-- C9: when the wait is interrupted, the trace of `execute_display`
contains `terminate` and both reader joins strictly before the
re-raise of the interruption, which is the final event — so no orphaned
child process and no dangling reader thread survives the call. -/
theorem cancellation_cleanup (rc : Int) :
    ExecEvent.terminate ∈ execute_display_events true rc ∧
    ExecEvent.joinReader true ∈ execute_display_events true rc ∧
    ExecEvent.joinReader false ∈ execute_display_events true rc ∧
    (execute_display_events true rc).getLast? = some .raiseInterrupt ∧
    (execute_display_events true rc).indexOf .terminate <
      (execute_display_events true rc).indexOf .raiseInterrupt ∧
    (execute_display_events true rc).indexOf (.joinReader true) <
      (execute_display_events true rc).indexOf .raiseInterrupt ∧
    (execute_display_events true rc).indexOf (.joinReader false) <
      (execute_display_events true rc).indexOf .raiseInterrupt := by
  have hev : execute_display_events true rc =
      [.spawn, .startReader true, .startReader false, .waitInterrupted,
       .terminate, .joinReader true, .joinReader false, .raiseInterrupt] := rfl
  rw [hev]
  decide

/-- C10: `read_requirements` drops a line exactly when its
whitespace-stripped form starts with `#` (so indented comments are also
dropped) and keeps every other line unchanged — including blank lines,
each of which later becomes its own pip install command. -/
theorem read_requirements_spec :
    (∀ (content l : Str), l ∈ read_requirements content ↔
      (l ∈ splitlines content ∧ startsWithHash (pyStrip l) = false)) ∧
    read_requirements (str "black\n\nruff") = [str "black", str "", str "ruff"] ∧
    (∀ exe : Str, get_pip_requirement_install_commands exe
        (read_requirements (str "black\n\nruff")) =
      [[exe, str "-m", str "pip", str "install", str "-U", str "black"],
       [exe, str "-m", str "pip", str "install", str "-U", str ""],
       [exe, str "-m", str "pip", str "install", str "-U", str "ruff"]]) ∧
    read_requirements (str "  # indented comment\nx") = [str "x"] := by
  refine ⟨?_, by decide, fun exe => rfl, by decide⟩
  intro content l
  unfold read_requirements
  rw [List.mem_filter]
  simp only [Bool.not_eq_true']

/-- C7: `get_requirements_install_jobs` builds exactly one job per
requirement file that is present (absent files are skipped), and a
`pip.txt` whose lines are `black` and `ruff` yields exactly one job of two
pip-install commands, contributing 2 to the aggregate total. -/
theorem requirements_jobs_spec :
    (∀ (exe : Str) (fs : String → Option Str),
      (get_requirements_install_jobs exe fs).length =
        [fs "apt.txt", fs "brew.txt", fs "pip.txt", fs "snap.txt"].countP
          Option.isSome) ∧
    (∀ exe : Str,
      get_requirements_install_jobs exe
          (fun nm => if nm = "pip.txt" then some (str "black\nruff") else none) =
        [⟨str "Pip requirements",
          [[exe, str "-m", str "pip", str "install", str "-U", str "black"],
           [exe, str "-m", str "pip", str "install", str "-U", str "ruff"]],
          str "2 packages installed"⟩] ∧
      sumTotals (get_requirements_install_jobs exe
        (fun nm => if nm = "pip.txt" then some (str "black\nruff") else none)) = 2) := by
  constructor
  · intro exe fs
    cases h1 : fs "apt.txt" <;> cases h2 : fs "brew.txt" <;>
      cases h3 : fs "pip.txt" <;> cases h4 : fs "snap.txt" <;>
      simp [get_requirements_install_jobs, REQUIREMENTS, List.filterMap_cons,
        h1, h2, h3, h4, List.countP_cons]
  · intro exe
    exact ⟨rfl, rfl⟩

/-- C1 (amended): for every non-empty job list in which every job has at
least one command, if every command execution succeeds then
`run_jobs_display` returns normally with every job's completed counter
equal to its total (the length of its command list) and the aggregate
counter equal to the sum of the per-job totals. -/
theorem run_all_success_completes (env : Nat → CmdBehavior)
    (jobs : List CommandJob) (h1 : jobs ≠ [])
    (h2 : ∀ job ∈ jobs, job.commands ≠ [])
    (h3 : ∀ k, (env k).returncode = 0) :
    ∃ s', run_jobs_display env jobs = .ok s' ∧
      s'.completed = totals jobs ∧ s'.totalCompleted = sumTotals jobs := by
  obtain ⟨s', hrun, hcan⟩ := runLoop_canon_ok env jobs (sumTotals jobs + 1) 0
    (initState jobs) (initState_canon jobs h1 h2) (Nat.zero_le _) (by omega)
    (fun k _ _ => h3 k)
  obtain ⟨hcomp, _, htc, _, _, _, _⟩ := hcan
  refine ⟨s', ?_, ?_, htc⟩
  · unfold run_jobs_display
    rw [if_neg (by simpa [List.isEmpty_iff] using h1)]
    exact hrun
  · rw [hcomp]
    exact canonCompleted_full (totals jobs) (sumTotals jobs) (Nat.le_refl _)

/-- Witness for C1 at a one-job, one-command list with an
always-succeeding executor. -/
theorem run_all_success_completes_wit :
    ∃ s', run_jobs_display (fun _ => ⟨[], [], 0⟩)
        [⟨str "t", [[str "x"]], str "m"⟩] = .ok s' ∧
      s'.completed = totals [⟨str "t", [[str "x"]], str "m"⟩] ∧
      s'.totalCompleted = sumTotals [⟨str "t", [[str "x"]], str "m"⟩] :=
  run_all_success_completes (fun _ => ⟨[], [], 0⟩)
    [⟨str "t", [[str "x"]], str "m"⟩] (by decide) (by decide) (fun _ => rfl)

/-- Counterexample to C1 as stated: a (non-empty) job list containing a
job with an empty command list has C = 0 total commands and trivially
all-succeeding executions, yet `run_jobs_display` raises `IndexError`
(the `rich` task with `total=0` never has `finished_time` set, so it is
selected as current and `commands[0]` is out of range) instead of
terminating normally. -/
theorem run_zero_command_job_index_error :
    run_jobs_display (fun _ => ⟨[], [], 0⟩) [⟨str "t", [], str "m"⟩] =
      .indexErr ∧
    sumTotals [⟨str "t", [], str "m"⟩] = 0 := by
  constructor
  · rfl
  · rfl

/-- C2 (amended): at every reachable loop state — canonical after `n`
successful commands over a job list — the loop guard reports finished iff
every job's completed counter equals its total, `next` reports "no
current job" iff the same condition holds, and while commands remain the
selected task is finished-flag-free with completed < total, every earlier
job is complete, and the command at index `completed` of the selected job
is exactly flattened command `n`. -/
theorem current_selection_canon (jobs : List CommandJob) (n : Nat)
    (s : RunState) (hn : n ≤ sumTotals jobs) (hs : Canon jobs n s) :
    (progressFinished s = true ↔ s.completed = totals jobs) ∧
    (firstUnfinished s.flags = none ↔ s.completed = totals jobs) ∧
    (n < sumTotals jobs →
      ∃ i, firstUnfinished s.flags = some i ∧
        s.completed.getD i 0 < (jobs.getD i default).commands.length ∧
        (∀ j, j < i → s.completed.getD j 0 = (totals jobs).getD j 0) ∧
        (jobs.getD i default).commands[s.completed.getD i 0]? =
          (flattenCommands jobs)[n]?) := by
  obtain ⟨hcomp, hflags, htc, htf, hout, herr, htr⟩ := hs
  have hdef : sumTotals jobs = (totals jobs).sum := rfl
  have hiff : n = sumTotals jobs ↔ s.completed = totals jobs := by
    constructor
    · intro heq
      rw [hcomp, heq]
      exact canonCompleted_full (totals jobs) (sumTotals jobs) (Nat.le_refl _)
    · intro heq
      have hsum : (canonCompleted (totals jobs) n).sum = n :=
        canonCompleted_sum _ _ hn
      rw [← hcomp, heq] at hsum
      rw [hdef, ← hsum]
  refine ⟨?_, ?_, ?_⟩
  · rw [← hiff]
    unfold progressFinished
    rw [hflags, htf, Bool.and_eq_true, canonFlags_all_iff, decide_eq_true_iff]
    constructor
    · rintro ⟨hsum, hC⟩
      omega
    · intro heq
      constructor
      · omega
      · omega
  · rw [← hiff, hflags, firstUnfinished_none_iff]
    constructor
    · intro hall
      have hallb : ((canonFlags (totals jobs) n).all fun f => f) = true :=
        List.all_eq_true.mpr hall
      have hsum := (canonFlags_all_iff _ _).mp hallb
      omega
    · intro heq
      have hallb : ((canonFlags (totals jobs) n).all fun f => f) = true :=
        (canonFlags_all_iff _ _).mpr (by omega)
      exact List.all_eq_true.mp hallb
  · intro hlt
    obtain ⟨i, h1, _, h3, h4, h5, _, _⟩ := canon_step jobs n hlt
    refine ⟨i, ?_, ?_, ?_, ?_⟩
    · rw [hflags]
      exact h1
    · rw [hcomp]
      exact h4
    · intro j hj
      rw [hcomp]
      exact h3 j hj
    · rw [hcomp]
      exact h5

/-- Witness for C2 at the initial state of a one-job, one-command list. -/
theorem current_selection_canon_wit :
    (progressFinished (initState [⟨str "t", [[str "x"]], str "m"⟩]) = true ↔
      (initState [⟨str "t", [[str "x"]], str "m"⟩]).completed =
        totals [⟨str "t", [[str "x"]], str "m"⟩]) ∧
    (firstUnfinished (initState [⟨str "t", [[str "x"]], str "m"⟩]).flags = none ↔
      (initState [⟨str "t", [[str "x"]], str "m"⟩]).completed =
        totals [⟨str "t", [[str "x"]], str "m"⟩]) ∧
    (0 < sumTotals [⟨str "t", [[str "x"]], str "m"⟩] →
      ∃ i, firstUnfinished (initState [⟨str "t", [[str "x"]], str "m"⟩]).flags =
          some i ∧
        (initState [⟨str "t", [[str "x"]], str "m"⟩]).completed.getD i 0 <
          (([⟨str "t", [[str "x"]], str "m"⟩] :
            List CommandJob).getD i default).commands.length ∧
        (∀ j, j < i →
          (initState [⟨str "t", [[str "x"]], str "m"⟩]).completed.getD j 0 =
            (totals [⟨str "t", [[str "x"]], str "m"⟩]).getD j 0) ∧
        (([⟨str "t", [[str "x"]], str "m"⟩] :
            List CommandJob).getD i default).commands[(initState
          [⟨str "t", [[str "x"]], str "m"⟩]).completed.getD i 0]? =
          (flattenCommands [⟨str "t", [[str "x"]], str "m"⟩])[0]?) :=
  current_selection_canon [⟨str "t", [[str "x"]], str "m"⟩] 0
    (initState [⟨str "t", [[str "x"]], str "m"⟩]) (by decide)
    (initState_canon [⟨str "t", [[str "x"]], str "m"⟩] (by decide) (by decide))

/-- Counterexample to C2 as stated: with a job list containing a job with
zero commands, every job's completed counter equals its total at the
initial state, yet the loop guard does not report finished and a current
job (with completed = total, not completed < total) is selected. -/
theorem zero_command_job_selection_cex :
    progressFinished (initState [⟨str "t", [], str "m"⟩]) = false ∧
    (initState [⟨str "t", [], str "m"⟩]).completed =
      totals [⟨str "t", [], str "m"⟩] ∧
    firstUnfinished (initState [⟨str "t", [], str "m"⟩]).flags = some 0 := by
  refine ⟨rfl, rfl, rfl⟩

/-- C3: if the commands at flattened positions `0..k-1` succeed and the
command at position `k` fails, `run_jobs_display` propagates exactly that
command's `ProcessFailure` (command, exit code, captured output) and the
executed-command trace is precisely the first `k+1` flattened commands:
nothing after position `k` ever runs. -/
theorem run_fail_fast (env : Nat → CmdBehavior) (jobs : List CommandJob)
    (k : Nat) (h1 : jobs ≠ []) (h2 : ∀ job ∈ jobs, job.commands ≠ [])
    (hk : k < sumTotals jobs) (hok : ∀ j, j < k → (env j).returncode = 0)
    (hfail : (env k).returncode ≠ 0) :
    ∃ cmd s', (flattenCommands jobs)[k]? = some cmd ∧
      run_jobs_display env jobs = .failed
        ⟨cmd, (env k).returncode, (env k).stdoutLines.flatten,
         (env k).stderrLines.flatten⟩ s' ∧
      s'.trace = (flattenCommands jobs).take (k + 1) := by
  obtain ⟨cmd, s', hfl, hrun, htr⟩ := runLoop_canon_fail env jobs k hk hfail
    (sumTotals jobs + 1) 0 (initState jobs) (initState_canon jobs h1 h2)
    (Nat.zero_le _) (by omega) (fun j _ hj => hok j hj)
  refine ⟨cmd, s', hfl, ?_, htr⟩
  unfold run_jobs_display
  rw [if_neg (by simpa [List.isEmpty_iff] using h1)]
  exact hrun

/-- Witness for C3: a one-job, two-command list whose first command fails
with exit code 3; only the first command is ever executed. -/
theorem run_fail_fast_wit :
    ∃ cmd s',
      (flattenCommands [⟨str "a", [[str "x"], [str "y"]], str "m"⟩])[0]? =
        some cmd ∧
      run_jobs_display (fun _ => ⟨[str "o\n"], [str "e"], 3⟩)
          [⟨str "a", [[str "x"], [str "y"]], str "m"⟩] = .failed
        ⟨cmd, ((fun _ => (⟨[str "o\n"], [str "e"], 3⟩ : CmdBehavior)) 0).returncode,
         ((fun _ => (⟨[str "o\n"], [str "e"], 3⟩ : CmdBehavior)) 0).stdoutLines.flatten,
         ((fun _ => (⟨[str "o\n"], [str "e"], 3⟩ : CmdBehavior)) 0).stderrLines.flatten⟩ s' ∧
      s'.trace = (flattenCommands
        [⟨str "a", [[str "x"], [str "y"]], str "m"⟩]).take (0 + 1) :=
  run_fail_fast (fun _ => ⟨[str "o\n"], [str "e"], 3⟩)
    [⟨str "a", [[str "x"], [str "y"]], str "m"⟩] 0 (by decide) (by decide)
    (by decide) (fun j hj => absurd hj (Nat.not_lt_zero j)) (by decide)

/-- C6: on every run, each command starts with both output buffers empty
(every recorded sink snapshot is a pair of empty buffers), and a
propagated failure reports exactly the failing command's own output in
its `output`/`stderr` fields — no carry-over from earlier commands. -/
theorem run_buffers_fresh (env : Nat → CmdBehavior) (jobs : List CommandJob) :
    bufferReport env (run_jobs_display env jobs) = true := by
  unfold run_jobs_display
  by_cases hempty : jobs.isEmpty
  · rw [if_pos hempty]
    rfl
  · rw [if_neg hempty]
    exact runLoop_buffer env jobs (sumTotals jobs + 1) (initState jobs)
      rfl rfl rfl (by simp [initState])

/-- C8 (amended): every task description rendered during a run belongs to
a job of the list and extends that job's title left-justified to the
common width `max_job_title_length jobs + 2` — the maximum title length
plus two, not the maximum title length itself. -/
theorem desc_label_padding (env : Nat → CmdBehavior) (jobs : List CommandJob)
    (i : Nat) (d : Str) (h : (i, d) ∈ descsOf (run_jobs_display env jobs)) :
    ∃ job suffix, jobs[i]? = some job ∧
      d = ljust job.title (max_job_title_length jobs + 2) ++ suffix ∧
      (ljust job.title (max_job_title_length jobs + 2)).length =
        max_job_title_length jobs + 2 := by
  have hok : descOk jobs (i, d) := by
    unfold run_jobs_display at h
    by_cases hempty : jobs.isEmpty
    · rw [if_pos hempty] at h
      simp [descsOf] at h
    · rw [if_neg hempty] at h
      exact runLoop_descs env jobs (sumTotals jobs + 1) (initState jobs)
        (by simp [initState]) (by intro p hp; simp [initState] at hp) (i, d) h
  obtain ⟨job, suffix, hjob, hd⟩ := hok
  refine ⟨job, suffix, hjob, hd, ?_⟩
  refine ljust_length _ _ ?_
  have hmem : job ∈ jobs := List.getElem?_mem hjob
  exact Nat.le_trans (title_le_max jobs job hmem) (Nat.le_add_right _ 2)

/-- Witness for C8's amended form at a concrete run: the first rendered
description of a one-job run. -/
theorem desc_label_padding_wit :
    ∃ job suffix,
      ([⟨str "a", [[str "x"]], str "done"⟩] : List CommandJob)[0]? = some job ∧
      str "a  [yellow]x" = ljust job.title
        (max_job_title_length [⟨str "a", [[str "x"]], str "done"⟩] + 2) ++ suffix ∧
      (ljust job.title
        (max_job_title_length [⟨str "a", [[str "x"]], str "done"⟩] + 2)).length =
        max_job_title_length [⟨str "a", [[str "x"]], str "done"⟩] + 2 :=
  desc_label_padding (fun _ => ⟨[], [], 0⟩) [⟨str "a", [[str "x"]], str "done"⟩]
    0 (str "a  [yellow]x") (by decide)

/-- Counterexample to C8 as stated: in a run of a single job titled `"a"`
(max title length 1), the description actually rendered for the pending
command is `"a  [yellow]x"` — the title padded to width max+2 — and the
description predicted by the claim's padding width, `"a[yellow]x"`, never
occurs among the rendered descriptions. -/
theorem desc_label_padding_cex :
    (0, str "a  [yellow]x") ∈ descsOf (run_jobs_display (fun _ => ⟨[], [], 0⟩)
      [⟨str "a", [[str "x"]], str "done"⟩]) ∧
    labelPaddedToMaxTitle [⟨str "a", [[str "x"]], str "done"⟩]
        ⟨str "a", [[str "x"]], str "done"⟩ ++ str "[yellow]" ++
        joinSpace [str "x"] = str "a[yellow]x" ∧
    str "a[yellow]x" ∉ (descsOf (run_jobs_display (fun _ => ⟨[], [], 0⟩)
      [⟨str "a", [[str "x"]], str "done"⟩])).map Prod.snd := by
  refine ⟨by decide, by decide, by decide⟩

end Install
